import Mathlib

/-!
Verification of the girder_worker streaming I/O engine.

This file gives a shallow embedding, in Lean 4, of the parts of the
girder_worker repository that the checked claims talk about:

* the container stdio demultiplexer
  (girder_worker/plugins/docker/demultiplexer_adapter.py),
* the multiplexing select loop and its connector bookkeeping
  (girder_worker/core/utils.py, select_loop),
* the stream connector close order (girder_worker/plugins/docker/tasks/io.py),
* the cancellation stop-retry loop and the temp volume cleanup block
  (girder_worker/docker/tasks/__init__.py),
* container argument token expansion
  (girder_worker/plugins/docker/executor.py, _expand_args),
* the job progress push adapter (girder_worker/core/utils.py,
  JobProgressAdapter) and
* temporary volume resolution (girder_worker/docker/transforms/__init__.py,
  TemporaryVolume.transform).

Bytes are modelled as natural numbers, byte strings as lists of naturals,
Python strings as lists of characters.  Each Python loop is translated into a
fuelled structural recursion; the fuel supplied at each entry point is shown
(or commented) to be sufficient on every state the Python program can reach,
so the embedding computes exactly what the source computes there.
-/

namespace GW

/-! ### Demultiplexer (girder_worker/plugins/docker/demultiplexer_adapter.py)

State of a `DemultiplexerAdapterPushAdapter` instance.  The Python object
also carries a `_payload` field, but no method ever appends to it (it is
reset to the empty string and never read), so it is omitted.  `payloadSize`
is `none` while the Python attribute `_payload_size` is `None`, and `some n`
when it is the integer `n`. -/
structure DemuxState where
  headerBytesRead : Nat
  payloadBytesRead : Nat
  payloadSize : Option Nat
  header : List Nat
  deriving Repr, DecidableEq

/-- State of a freshly constructed adapter (`__init__`). -/
def initDemux : DemuxState :=
  { headerBytesRead := 0, payloadBytesRead := 0, payloadSize := none, header := [] }

/-- State after the frame-complete reset (`write`, lines 44-50): header and
counters cleared, `_payload_size` set to the integer `0`. -/
def resetDemux : DemuxState :=
  { headerBytesRead := 0, payloadBytesRead := 0, payloadSize := some 0, header := [] }

/-- Python truthiness of the `_payload_size` attribute: both `None` and `0`
are falsy. -/
def psTruthy : Option Nat → Bool
  | none => false
  | some n => n != 0

/-- Python equality test `_payload_size == _payload_bytes_read`: comparing
`None` with an integer yields `False`. -/
def psEq : Option Nat → Nat → Bool
  | none, _ => false
  | some n, k => n == k

/-- The length decoded by `struct.unpack to BxxxL` from the 8 header bytes: a
big-endian unsigned 32-bit integer in bytes 4..7 (byte 0 is the stream type,
bytes 1..3 are padding).  The function is only ever applied to a header that
holds exactly 8 bytes; the catch-all branch is unreachable. -/
def decodeLen : List Nat → Nat
  | [_, _, _, _, b4, b5, b6, b7] => b4 * 16777216 + b5 * 65536 + b6 * 256 + b7
  | _ => 0

/-- One pass of the body of the `while` loop in `write` (lines 36-50).
Returns the state after the pass, the input bytes the pass did not consume,
and the bytes the pass handed to the downstream adapter. -/
def writePass (s : DemuxState) (rem : List Nat) : DemuxState × List Nat × List Nat :=
  -- `_read_header` (lines 13-22), entered while `_header_bytes_read < 8`;
  -- `_payload_size` is assigned its return value: the decoded length if the
  -- header just completed, `None` otherwise
  let hk := min (8 - s.headerBytesRead) rem.length
  let s1 : DemuxState :=
    if s.headerBytesRead < 8 then
      { headerBytesRead := s.headerBytesRead + hk,
        payloadBytesRead := s.payloadBytesRead,
        payloadSize :=
          if s.headerBytesRead + hk = 8 then some (decodeLen (s.header ++ rem.take hk))
          else none,
        header := s.header ++ rem.take hk }
    else s
  let rem1 := if s.headerBytesRead < 8 then rem.drop hk else rem
  -- `_read_payload` (lines 24-28), entered while `_payload_size` is truthy
  -- and the payload is incomplete
  let pk := min (s1.payloadSize.getD 0 - s1.payloadBytesRead) rem1.length
  let doPayload := psTruthy s1.payloadSize && decide (s1.payloadBytesRead < s1.payloadSize.getD 0)
  let s2 : DemuxState :=
    if doPayload then { s1 with payloadBytesRead := s1.payloadBytesRead + pk } else s1
  let out := if doPayload then rem1.take pk else []
  let rem2 := if doPayload then rem1.drop pk else rem1
  -- frame-complete reset (lines 44-50)
  let s3 := if psEq s2.payloadSize s2.payloadBytesRead then resetDemux else s2
  (s3, rem2, out)

/-- The `while` loop of `write` (lines 35-50): iterate `writePass` while
input bytes remain.  The first component of the result is the adapter state
after the call, the second is the concatenation of all bytes handed to the
downstream adapter during the call.  `fuel` bounds the number of loop
passes; every pass of the Python loop consumes at least one input byte from
any state the adapter can reach, so `demuxWrite` below supplies
`data.length` and never exhausts it (lemma `writeLoop_eq_byteFold`). -/
def writeLoop : Nat → DemuxState → List Nat → DemuxState × List Nat
  | 0, s, _ => (s, [])
  | fuel + 1, s, rem =>
    if rem = [] then (s, [])
    else
      let p := writePass s rem
      let rest := writeLoop fuel p.1 p.2.1
      (rest.1, p.2.2 ++ rest.2)

/-- The `write` method of `DemultiplexerAdapterPushAdapter` (lines 30-50). -/
def demuxWrite (s : DemuxState) (data : List Nat) : DemuxState × List Nat :=
  writeLoop data.length s data

/-- Feeding a sequence of chunks to the adapter with successive calls to
`write`, collecting everything forwarded downstream. -/
def feedChunks : DemuxState → List (List Nat) → DemuxState × List Nat
  | s, [] => (s, [])
  | s, c :: cs =>
    let r := demuxWrite s c
    let r2 := feedChunks r.1 cs
    (r2.1, r.2 ++ r2.2)

/-- Reference machine: the effect of one `write` loop pass on a single input
byte.  Feeding bytes one at a time traverses exactly the same state
transitions as the batched reads of `_read_header` and `_read_payload`
(lemma `writeLoop_eq_byteFold` below), which is what makes the decoder
insensitive to chunk boundaries. -/
def byteStep (s : DemuxState) (b : Nat) : DemuxState × List Nat :=
  if s.headerBytesRead < 8 then
    let header' := s.header ++ [b]
    let ps' : Option Nat :=
      if s.headerBytesRead + 1 = 8 then some (decodeLen header') else none
    let s1 : DemuxState :=
      { headerBytesRead := s.headerBytesRead + 1,
        payloadBytesRead := s.payloadBytesRead,
        payloadSize := ps', header := header' }
    (if psEq ps' s.payloadBytesRead then resetDemux else s1, [])
  else if psTruthy s.payloadSize && decide (s.payloadBytesRead < s.payloadSize.getD 0) then
    let s1 : DemuxState := { s with payloadBytesRead := s.payloadBytesRead + 1 }
    (if psEq s.payloadSize s1.payloadBytesRead then resetDemux else s1, [b])
  else (s, [])

/-- Folding the byte-level reference machine over a byte string. -/
def byteFold : DemuxState → List Nat → DemuxState × List Nat
  | s, [] => (s, [])
  | s, b :: bs =>
    let r := byteStep s b
    let r2 := byteFold r.1 bs
    (r2.1, r.2 ++ r2.2)

/-! ### Frames and their encoding (the docker attach-socket wire format) -/

/-- One frame of the multiplexed stream: a stream-type byte, three padding
bytes, and the payload.  The header carries the payload length as a 4-byte
big-endian integer. -/
structure Frame where
  streamType : Nat
  pad1 : Nat
  pad2 : Nat
  pad3 : Nat
  payload : List Nat
  deriving Repr, DecidableEq

/-- Big-endian 4-byte encoding of a length. -/
def be32 (n : Nat) : List Nat :=
  [n / 16777216 % 256, n / 65536 % 256, n / 256 % 256, n % 256]

/-- Encoded form of one frame: 8 header bytes followed by the payload. -/
def encodeFrame (f : Frame) : List Nat :=
  [f.streamType, f.pad1, f.pad2, f.pad3] ++ be32 f.payload.length ++ f.payload

/-- Encoded form of a frame sequence. -/
def encodeStream (fs : List Frame) : List Nat :=
  (fs.map encodeFrame).flatten

/-- Concatenation of the payloads of a frame sequence. -/
def concatPayloads (fs : List Frame) : List Nat :=
  (fs.map Frame.payload).flatten

-- Sanity checks mirroring the unit tests in
-- girder_worker/plugins/docker/tests/demultiplexer_adapter_test.py
-- (testSinglePayload, testAdapterBrokenUp, testMultiplePayload).
example :
    (demuxWrite initDemux
      ([2, 0, 0, 0, 0, 0, 0, 4] ++ [10, 11, 12, 13])).2 = [10, 11, 12, 13] := by decide

example :
    (feedChunks initDemux
      [[2, 0, 0, 0], [0, 0, 0, 4], [10, 11, 12, 13]]).2 = [10, 11, 12, 13] := by decide

example :
    (feedChunks initDemux
      [[2, 0, 0, 0, 0, 0, 0, 2, 10, 11],
       [1, 0, 0, 0, 0, 0, 0, 3, 20, 21, 22]]).2 = [10, 11, 20, 21, 22] := by decide

-- A zero-length payload between two frames, with ragged chunk boundaries.
example :
    (feedChunks initDemux
      [[2, 0, 0], [0, 0, 0, 0, 2, 10], [11, 1, 0, 0, 0, 0, 0, 0],
       [0, 2, 9, 9, 9, 0, 0, 0, 1], [30]]).2 = [10, 11, 30] := by decide

/-! ### Reachable demultiplexer states and the chunk-insensitivity lemmas -/

/-- States the adapter can actually be in between `write` calls (and between
loop passes): either it is accumulating a header and no payload byte of the
current frame has been read, or the header is complete and a strictly
positive payload is strictly incomplete. -/
def DemuxInv (s : DemuxState) : Prop :=
  (s.headerBytesRead < 8 ∧ s.payloadBytesRead = 0)
  ∨ (s.headerBytesRead = 8 ∧
      ∃ n, s.payloadSize = some n ∧ 0 < n ∧ s.payloadBytesRead < n)

theorem demuxInv_init : DemuxInv initDemux := by
  left; exact ⟨by decide, rfl⟩

theorem demuxInv_reset : DemuxInv resetDemux := by
  left; exact ⟨by decide, rfl⟩

theorem byteFold_append (s : DemuxState) (a b : List Nat) :
    byteFold s (a ++ b) =
      ((byteFold (byteFold s a).1 b).1,
        (byteFold s a).2 ++ (byteFold (byteFold s a).1 b).2) := by
  induction a generalizing s with
  | nil => simp [byteFold]
  | cons x xs ih => simp [byteFold, ih, List.append_assoc]

/-- Effect of one byte on a state that is strictly inside the header (the
byte does not complete it). -/
theorem byteStep_header_mid (s : DemuxState) (x : Nat)
    (h8 : s.headerBytesRead < 8) (hn8 : ¬ s.headerBytesRead + 1 = 8) :
    byteStep s x =
      ({ headerBytesRead := s.headerBytesRead + 1,
         payloadBytesRead := s.payloadBytesRead,
         payloadSize := none, header := s.header ++ [x] }, []) := by
  simp [byteStep, h8, hn8, psEq]

/-- Effect of the byte that completes the header, from a state with no
payload byte read yet. -/
theorem byteStep_header_last (s : DemuxState) (x : Nat)
    (hc : s.headerBytesRead + 1 = 8) (hpbr : s.payloadBytesRead = 0) :
    byteStep s x =
      (if decodeLen (s.header ++ [x]) = 0 then resetDemux
       else { headerBytesRead := 8, payloadBytesRead := 0,
              payloadSize := some (decodeLen (s.header ++ [x])),
              header := s.header ++ [x] }, []) := by
  have h8 : s.headerBytesRead < 8 := by omega
  by_cases hz : decodeLen (s.header ++ [x]) = 0
  · simp [byteStep, h8, hc, psEq, hz, hpbr]
  · simp [byteStep, h8, hc, psEq, hz, hpbr, hc]

/-- Effect of one payload byte within the announced payload size. -/
theorem byteStep_payload (s : DemuxState) (x : Nat) (n : Nat)
    (h8 : s.headerBytesRead = 8) (hps : s.payloadSize = some n)
    (hlt : s.payloadBytesRead < n) :
    byteStep s x =
      (if s.payloadBytesRead + 1 = n then resetDemux
       else { s with payloadBytesRead := s.payloadBytesRead + 1 }, [x]) := by
  have hn8 : ¬ s.headerBytesRead < 8 := by omega
  have hnz : n ≠ 0 := by omega
  by_cases hdone : s.payloadBytesRead + 1 = n
  · simp [byteStep, hn8, hps, psTruthy, psEq, hlt, hnz, hdone]
  · have : ¬ n = s.payloadBytesRead + 1 := fun h => hdone h.symm
    simp [byteStep, hn8, hps, psTruthy, psEq, hlt, hnz, hdone, this]

/-- Feeding bytes of a header one at a time, stopping strictly before the
header is complete: the bytes accumulate and nothing is emitted. -/
theorem byteFold_header_run (bs : List Nat) (s : DemuxState)
    (hlt : s.headerBytesRead + bs.length < 8) (hne : bs ≠ []) :
    byteFold s bs =
      ({ headerBytesRead := s.headerBytesRead + bs.length,
         payloadBytesRead := s.payloadBytesRead,
         payloadSize := none,
         header := s.header ++ bs }, []) := by
  induction bs generalizing s with
  | nil => exact absurd rfl hne
  | cons x xs ih =>
    have h8 : s.headerBytesRead < 8 := by simp at hlt; omega
    have hn8 : ¬ s.headerBytesRead + 1 = 8 := by simp at hlt; omega
    simp only [byteFold, byteStep_header_mid s x h8 hn8]
    cases hxs : xs with
    | nil =>
      subst hxs
      simp [byteFold]
    | cons y ys =>
      rw [← hxs]
      have hxs' : xs ≠ [] := by simp [hxs]
      rw [ih _ (by simp at hlt ⊢; omega) hxs']
      simp [List.append_assoc]
      omega

/-- Feeding exactly the bytes that complete a header, one at a time, from a
state with no payload byte read: the decoded length becomes the payload
size, and a zero length resets the state at once. -/
theorem byteFold_header_fill (bs : List Nat) (s : DemuxState)
    (hfill : s.headerBytesRead + bs.length = 8) (hpbr : s.payloadBytesRead = 0)
    (hne : bs ≠ []) :
    byteFold s bs =
      (if decodeLen (s.header ++ bs) = 0 then resetDemux
       else { headerBytesRead := 8, payloadBytesRead := 0,
              payloadSize := some (decodeLen (s.header ++ bs)),
              header := s.header ++ bs }, []) := by
  induction bs generalizing s with
  | nil => exact absurd rfl hne
  | cons x xs ih =>
    cases hxs : xs with
    | nil =>
      subst hxs
      have hc : s.headerBytesRead + 1 = 8 := by simpa using hfill
      simp only [byteFold, byteStep_header_last s x hc hpbr]
      by_cases hz : decodeLen (s.header ++ [x]) = 0
      · simp [hz, byteFold]
      · simp [hz, byteFold]
    | cons y ys =>
      rw [← hxs]
      have hxs' : xs ≠ [] := by simp [hxs]
      have hxlen : 1 ≤ xs.length := by
        cases hxs2 : xs with
        | nil => exact absurd hxs2 hxs'
        | cons _ _ => simp
      have h8 : s.headerBytesRead < 8 := by simp at hfill; omega
      have hn8 : ¬ s.headerBytesRead + 1 = 8 := by simp at hfill; omega
      simp only [byteFold, byteStep_header_mid s x h8 hn8]
      rw [ih ({ headerBytesRead := s.headerBytesRead + 1,
                payloadBytesRead := s.payloadBytesRead,
                payloadSize := none, header := s.header ++ [x] })
            (by simp at hfill ⊢; omega) (by simpa using hpbr) hxs']
      simp [List.append_assoc]

/-- Feeding payload bytes one at a time, within the announced payload size:
every byte is forwarded, and the state resets exactly when the payload
completes. -/
theorem byteFold_payload_run (bs : List Nat) (s : DemuxState) (n : Nat)
    (h8 : s.headerBytesRead = 8) (hps : s.payloadSize = some n)
    (hle : s.payloadBytesRead + bs.length ≤ n) (hne : bs ≠ []) :
    byteFold s bs =
      (if s.payloadBytesRead + bs.length = n then resetDemux
       else { s with payloadBytesRead := s.payloadBytesRead + bs.length }, bs) := by
  induction bs generalizing s with
  | nil => exact absurd rfl hne
  | cons x xs ih =>
    have hlt : s.payloadBytesRead < n := by simp at hle; omega
    simp only [byteFold, byteStep_payload s x n h8 hps hlt]
    cases hxs : xs with
    | nil =>
      subst hxs
      by_cases hdone : s.payloadBytesRead + 1 = n
      · simp [hdone, byteFold]
      · simp [hdone, byteFold]
    | cons y ys =>
      rw [← hxs]
      have hxs' : xs ≠ [] := by simp [hxs]
      have hxlen : 1 ≤ xs.length := by
        cases hxs2 : xs with
        | nil => exact absurd hxs2 hxs'
        | cons _ _ => simp
      have hmid : ¬ s.payloadBytesRead + 1 = n := by simp at hle; omega
      simp only [if_neg hmid]
      rw [ih ({ s with payloadBytesRead := s.payloadBytesRead + 1 }) h8 hps
            (by simp at hle ⊢; omega) hxs']
      have harith : s.payloadBytesRead + 1 + xs.length = s.payloadBytesRead + (x :: xs).length := by
        simp; omega
      simp only [harith]
      simp

/-- Special case of `byteFold_payload_run`: the bytes finish the payload. -/
theorem byteFold_payload_run_full (bs : List Nat) (s : DemuxState) (n : Nat)
    (h8 : s.headerBytesRead = 8) (hps : s.payloadSize = some n)
    (hexact : s.payloadBytesRead + bs.length = n) (hne : bs ≠ []) :
    byteFold s bs = (resetDemux, bs) := by
  rw [byteFold_payload_run bs s n h8 hps (by omega) hne, if_pos hexact]

/-- Special case of `byteFold_payload_run`: the bytes leave the payload
strictly incomplete. -/
theorem byteFold_payload_run_mid (bs : List Nat) (s : DemuxState) (n : Nat)
    (h8 : s.headerBytesRead = 8) (hps : s.payloadSize = some n)
    (hlt2 : s.payloadBytesRead + bs.length < n) (hne : bs ≠ []) :
    byteFold s bs =
      ({ s with payloadBytesRead := s.payloadBytesRead + bs.length }, bs) := by
  rw [byteFold_payload_run bs s n h8 hps (by omega) hne, if_neg (by omega)]

theorem writeLoop_nil (fuel : Nat) (s : DemuxState) : writeLoop fuel s [] = (s, []) := by
  cases fuel <;> simp [writeLoop]

/-- A write pass on a state strictly inside the header, when the input does
not complete the header: all input bytes join the header and nothing is
emitted. -/
theorem writePass_header_short (s : DemuxState) (rem : List Nat)
    (h8 : s.headerBytesRead < 8) (hfit : s.headerBytesRead + rem.length < 8) :
    writePass s rem =
      ({ headerBytesRead := s.headerBytesRead + rem.length,
         payloadBytesRead := s.payloadBytesRead,
         payloadSize := none, header := s.header ++ rem }, [], []) := by
  have hk : min (8 - s.headerBytesRead) rem.length = rem.length := by omega
  have hne8 : ¬ (s.headerBytesRead + rem.length = 8) := by omega
  simp [writePass, h8, hk, hne8, psTruthy, psEq]

/-- A write pass that completes the header and decodes a zero payload
length: the state resets at once and nothing is emitted. -/
theorem writePass_fill_zero (s : DemuxState) (rem : List Nat)
    (h8 : s.headerBytesRead < 8) (hbig : 8 ≤ s.headerBytesRead + rem.length)
    (hpbr : s.payloadBytesRead = 0)
    (hz : decodeLen (s.header ++ rem.take (8 - s.headerBytesRead)) = 0) :
    writePass s rem = (resetDemux, rem.drop (8 - s.headerBytesRead), []) := by
  have hk : min (8 - s.headerBytesRead) rem.length = 8 - s.headerBytesRead := by omega
  have hc : s.headerBytesRead + (8 - s.headerBytesRead) = 8 := by omega
  simp [writePass, h8, hk, hc, hz, psTruthy, psEq, hpbr]

/-- A write pass that completes the header, decodes a positive payload
length, and finds enough bytes left to finish the whole payload: the
payload slice is forwarded and the state resets. -/
theorem writePass_fill_pos_full (s : DemuxState) (rem : List Nat) (n pk : Nat)
    (h8 : s.headerBytesRead < 8) (hbig : 8 ≤ s.headerBytesRead + rem.length)
    (hpbr : s.payloadBytesRead = 0)
    (hn : decodeLen (s.header ++ rem.take (8 - s.headerBytesRead)) = n) (hpos : 0 < n)
    (hpk : pk = min n (rem.length - (8 - s.headerBytesRead)))
    (hfull : pk = n) :
    writePass s rem =
      (resetDemux,
       (rem.drop (8 - s.headerBytesRead)).drop pk,
       (rem.drop (8 - s.headerBytesRead)).take pk) := by
  have hk : min (8 - s.headerBytesRead) rem.length = 8 - s.headerBytesRead := by omega
  have hc : s.headerBytesRead + (8 - s.headerBytesRead) = 8 := by omega
  have hnz : n ≠ 0 := by omega
  simp [writePass, h8, hk, hc, hn, hpbr, psTruthy, psEq, hnz, hpos]
  have hm : n ⊓ (rem.length - (8 - s.headerBytesRead)) = pk := by omega
  refine ⟨fun hcon => absurd hcon (by omega), by simp [hm], by omega⟩

/-- A write pass that completes the header, decodes a positive payload
length, and cannot finish the payload with the remaining bytes: what is
available is forwarded and the state stays inside the payload. -/
theorem writePass_fill_pos_mid (s : DemuxState) (rem : List Nat) (n pk : Nat)
    (h8 : s.headerBytesRead < 8) (hbig : 8 ≤ s.headerBytesRead + rem.length)
    (hpbr : s.payloadBytesRead = 0)
    (hn : decodeLen (s.header ++ rem.take (8 - s.headerBytesRead)) = n) (hpos : 0 < n)
    (hpk : pk = min n (rem.length - (8 - s.headerBytesRead)))
    (hmid : ¬ pk = n) :
    writePass s rem =
      ({ headerBytesRead := 8, payloadBytesRead := pk, payloadSize := some n,
         header := s.header ++ rem.take (8 - s.headerBytesRead) },
       (rem.drop (8 - s.headerBytesRead)).drop pk,
       (rem.drop (8 - s.headerBytesRead)).take pk) := by
  have hk : min (8 - s.headerBytesRead) rem.length = 8 - s.headerBytesRead := by omega
  have hc : s.headerBytesRead + (8 - s.headerBytesRead) = 8 := by omega
  have hnz : n ≠ 0 := by omega
  simp [writePass, h8, hk, hc, hn, hpbr, psTruthy, psEq, hnz, hpos]
  have hm : n ⊓ (rem.length - (8 - s.headerBytesRead)) = pk := by omega
  rw [if_neg (show ¬ n ≤ rem.length - (8 - s.headerBytesRead) by omega)]
  refine ⟨by simp [hm], by simp [hm], by omega⟩

/-- A write pass on a state inside a payload, when the remaining bytes
finish the payload: the final slice is forwarded and the state resets. -/
theorem writePass_payload_full (s : DemuxState) (rem : List Nat) (n pk : Nat)
    (h8 : s.headerBytesRead = 8) (hps : s.payloadSize = some n)
    (hlt : s.payloadBytesRead < n)
    (hpk : pk = min (n - s.payloadBytesRead) rem.length)
    (hfull : s.payloadBytesRead + pk = n) :
    writePass s rem = (resetDemux, rem.drop pk, rem.take pk) := by
  have hn8 : ¬ s.headerBytesRead < 8 := by omega
  have hnz : n ≠ 0 := by omega
  simp only [writePass, if_neg hn8, hps]
  simp only [Option.getD_some, psTruthy, psEq]
  have hpk' : min (n - s.payloadBytesRead) rem.length = pk := hpk.symm
  simp only [hpk']
  have hbt : (n != 0 && decide (s.payloadBytesRead < n)) = true := by simp [hnz, hlt]
  simp only [hbt, if_pos rfl]
  have : (n == s.payloadBytesRead + pk) = true := by simp; omega
  simp [this]

/-- A write pass on a state inside a payload, when the remaining bytes do
not finish the payload: everything available is forwarded and the state
stays inside the payload. -/
theorem writePass_payload_mid (s : DemuxState) (rem : List Nat) (n pk : Nat)
    (h8 : s.headerBytesRead = 8) (hps : s.payloadSize = some n)
    (hlt : s.payloadBytesRead < n)
    (hpk : pk = min (n - s.payloadBytesRead) rem.length)
    (hmid : ¬ s.payloadBytesRead + pk = n) :
    writePass s rem =
      ({ s with payloadBytesRead := s.payloadBytesRead + pk },
       rem.drop pk, rem.take pk) := by
  have hn8 : ¬ s.headerBytesRead < 8 := by omega
  have hnz : n ≠ 0 := by omega
  simp only [writePass, if_neg hn8, hps]
  simp only [Option.getD_some, psTruthy, psEq]
  have hpk' : min (n - s.payloadBytesRead) rem.length = pk := hpk.symm
  simp only [hpk']
  have hbt : (n != 0 && decide (s.payloadBytesRead < n)) = true := by simp [hnz, hlt]
  simp only [hbt, if_pos rfl]
  have : (n == s.payloadBytesRead + pk) = false := by simp; omega
  simp [this]

/-- The batched write loop and the byte-at-a-time reference machine compute
the same final state and forward the same bytes, from any reachable state,
when the fuel covers one loop pass per input byte (each pass consumes at
least one byte from a reachable state). -/
theorem writeLoop_eq_byteFold (fuel : Nat) :
    ∀ (s : DemuxState) (rem : List Nat), DemuxInv s → rem.length ≤ fuel →
      writeLoop fuel s rem = byteFold s rem := by
  induction fuel with
  | zero =>
    intro s rem _ hf
    have hr : rem = [] := by
      cases rem with
      | nil => rfl
      | cons x xs => simp at hf
    subst hr
    simp [writeLoop, byteFold]
  | succ fuel ih =>
    intro s rem hinv hf
    by_cases hrem : rem = []
    · subst hrem; simp [writeLoop, byteFold]
    · have hrlen : 1 ≤ rem.length := by
        cases rem with
        | nil => exact absurd rfl hrem
        | cons _ _ => simp
      simp only [writeLoop, if_neg hrem]
      rcases hinv with ⟨h8, hpbr⟩ | ⟨h8, n, hps, hpos, hlt⟩
      · -- the state is accumulating a header
        by_cases hfit : s.headerBytesRead + rem.length < 8
        · -- the input does not complete the header
          rw [writePass_header_short s rem h8 hfit, writeLoop_nil,
            byteFold_header_run rem s hfit hrem]
          simp
        · -- the input completes the header
          push_neg at hfit
          have hk_le : 8 - s.headerBytesRead ≤ rem.length := by omega
          have hk_pos : 1 ≤ 8 - s.headerBytesRead := by omega
          have htake_len : (rem.take (8 - s.headerBytesRead)).length = 8 - s.headerBytesRead := by
            simp [List.length_take]; omega
          have htake_ne : rem.take (8 - s.headerBytesRead) ≠ [] := by
            intro h; rw [h] at htake_len; simp at htake_len; omega
          have hsplit : rem.take (8 - s.headerBytesRead) ++ rem.drop (8 - s.headerBytesRead) = rem :=
            List.take_append_drop _ _
          by_cases hz : decodeLen (s.header ++ rem.take (8 - s.headerBytesRead)) = 0
          · -- zero-length payload: reset immediately and continue
            rw [writePass_fill_zero s rem h8 hfit hpbr hz]
            simp only []
            rw [ih resetDemux (rem.drop (8 - s.headerBytesRead)) demuxInv_reset
              (by simp [List.length_drop]; omega)]
            conv_rhs => rw [← hsplit]
            rw [byteFold_append,
              byteFold_header_fill (rem.take (8 - s.headerBytesRead)) s
                (by rw [htake_len]; omega) hpbr htake_ne]
            rw [if_pos hz]
          · -- positive payload length
            have hpos : 0 < decodeLen (s.header ++ rem.take (8 - s.headerBytesRead)) :=
              Nat.pos_of_ne_zero hz
            by_cases hr0 : rem.drop (8 - s.headerBytesRead) = []
            · -- the header consumed the whole input
              have hlen8 : s.headerBytesRead + rem.length = 8 := by
                have := List.length_drop (8 - s.headerBytesRead) rem
                rw [hr0] at this; simp at this; omega
              have hpk0 : (0 : Nat) = min (decodeLen (s.header ++ rem.take (8 - s.headerBytesRead)))
                  (rem.length - (8 - s.headerBytesRead)) := by omega
              have htake_all : rem.take (8 - s.headerBytesRead) = rem :=
                List.take_of_length_le (by omega)
              rw [writePass_fill_pos_mid s rem _ 0 h8 hfit hpbr rfl hpos hpk0 (by omega)]
              simp only []
              rw [hr0]
              simp only [List.drop_nil, List.take_nil]
              rw [writeLoop_nil]
              rw [byteFold_header_fill rem s (by omega) hpbr hrem,
                if_neg (by rw [htake_all] at hz; exact hz)]
              rw [htake_all]
              simp
            · -- at least one payload byte is available in this pass
              have hr_pos : 1 ≤ rem.length - (8 - s.headerBytesRead) := by
                have h1 : (rem.drop (8 - s.headerBytesRead)).length ≠ 0 :=
                  fun h => hr0 (List.length_eq_zero.mp h)
                simp [List.length_drop] at h1
                omega
              have hpk_pos : 1 ≤ min (decodeLen (s.header ++ rem.take (8 - s.headerBytesRead)))
                  (rem.length - (8 - s.headerBytesRead)) := by omega
              have hptake_len :
                  ((rem.drop (8 - s.headerBytesRead)).take
                    (min (decodeLen (s.header ++ rem.take (8 - s.headerBytesRead)))
                      (rem.length - (8 - s.headerBytesRead)))).length =
                  min (decodeLen (s.header ++ rem.take (8 - s.headerBytesRead)))
                    (rem.length - (8 - s.headerBytesRead)) := by
                rw [List.length_take, List.length_drop]
                omega
              have hptake_ne :
                  (rem.drop (8 - s.headerBytesRead)).take
                    (min (decodeLen (s.header ++ rem.take (8 - s.headerBytesRead)))
                      (rem.length - (8 - s.headerBytesRead))) ≠ [] := by
                intro h; rw [h] at hptake_len; simp at hptake_len; omega
              have hpsplit :
                  ((rem.drop (8 - s.headerBytesRead)).take
                    (min (decodeLen (s.header ++ rem.take (8 - s.headerBytesRead)))
                      (rem.length - (8 - s.headerBytesRead)))) ++
                  ((rem.drop (8 - s.headerBytesRead)).drop
                    (min (decodeLen (s.header ++ rem.take (8 - s.headerBytesRead)))
                      (rem.length - (8 - s.headerBytesRead)))) =
                  rem.drop (8 - s.headerBytesRead) :=
                List.take_append_drop _ _
              by_cases hfull : min (decodeLen (s.header ++ rem.take (8 - s.headerBytesRead)))
                  (rem.length - (8 - s.headerBytesRead)) =
                  decodeLen (s.header ++ rem.take (8 - s.headerBytesRead))
              · -- the pass finishes the payload
                rw [writePass_fill_pos_full s rem _ _ h8 hfit hpbr rfl hpos rfl hfull]
                simp only []
                rw [ih resetDemux _ demuxInv_reset (by simp [List.length_drop]; omega)]
                conv_rhs => rw [← hsplit]
                rw [byteFold_append,
                  byteFold_header_fill (rem.take (8 - s.headerBytesRead)) s
                    (by rw [htake_len]; omega) hpbr htake_ne]
                rw [if_neg hz]
                simp only []
                conv_rhs => rw [← hpsplit]
                rw [byteFold_append]
                rw [byteFold_payload_run_full _ _
                    (decodeLen (s.header ++ rem.take (8 - s.headerBytesRead)))
                    rfl rfl (by simp only [hptake_len]; omega) hptake_ne]
                simp
              · -- the pass leaves the payload incomplete
                rw [writePass_fill_pos_mid s rem _ _ h8 hfit hpbr rfl hpos rfl hfull]
                simp only []
                rw [ih _ _ (Or.inr ⟨rfl, decodeLen (s.header ++ rem.take (8 - s.headerBytesRead)),
                    rfl, hpos, by exact lt_of_le_of_ne (min_le_left _ _) hfull⟩)
                  (by simp [List.length_drop]; omega)]
                conv_rhs => rw [← hsplit]
                rw [byteFold_append,
                  byteFold_header_fill (rem.take (8 - s.headerBytesRead)) s
                    (by rw [htake_len]; omega) hpbr htake_ne]
                rw [if_neg hz]
                simp only []
                conv_rhs => rw [← hpsplit]
                rw [byteFold_append]
                rw [byteFold_payload_run_mid _ _
                    (decodeLen (s.header ++ rem.take (8 - s.headerBytesRead)))
                    rfl rfl (by simp only [hptake_len]; omega) hptake_ne]
                simp [hptake_len]
      · -- the state is inside a payload
        have hpk_pos : 1 ≤ min (n - s.payloadBytesRead) rem.length := by omega
        have hptake_len : (rem.take (min (n - s.payloadBytesRead) rem.length)).length =
            min (n - s.payloadBytesRead) rem.length := by
          rw [List.length_take]
          omega
        have hptake_ne : rem.take (min (n - s.payloadBytesRead) rem.length) ≠ [] := by
          intro h; rw [h] at hptake_len; simp at hptake_len; omega
        have hpsplit : rem.take (min (n - s.payloadBytesRead) rem.length) ++
            rem.drop (min (n - s.payloadBytesRead) rem.length) = rem :=
          List.take_append_drop _ _
        by_cases hfull : s.payloadBytesRead + min (n - s.payloadBytesRead) rem.length = n
        · rw [writePass_payload_full s rem n _ h8 hps hlt rfl hfull]
          simp only []
          rw [ih resetDemux _ demuxInv_reset (by simp [List.length_drop]; omega)]
          conv_rhs => rw [← hpsplit]
          rw [byteFold_append]
          rw [byteFold_payload_run_full _ _ n h8 hps (by simp only [hptake_len]; omega) hptake_ne]
        · rw [writePass_payload_mid s rem n _ h8 hps hlt rfl hfull]
          simp only []
          rw [ih (⟨s.headerBytesRead,
              s.payloadBytesRead + min (n - s.payloadBytesRead) rem.length,
              s.payloadSize, s.header⟩ : DemuxState)
            (rem.drop (min (n - s.payloadBytesRead) rem.length))
            (Or.inr ⟨h8, n, hps, hpos, by simp only []; omega⟩)
            (by simp [List.length_drop]; omega)]
          conv_rhs => rw [← hpsplit]
          rw [byteFold_append]
          rw [byteFold_payload_run_mid _ _ n h8 hps (by simp only [hptake_len]; omega) hptake_ne]
          simp [hptake_len]

theorem byteStep_inv (s : DemuxState) (b : Nat) (hinv : DemuxInv s) :
    DemuxInv (byteStep s b).1 := by
  rcases hinv with ⟨h8, hpbr⟩ | ⟨h8, n, hps, hpos, hlt⟩
  · by_cases hc : s.headerBytesRead + 1 = 8
    · rw [byteStep_header_last s b hc hpbr]
      by_cases hz : decodeLen (s.header ++ [b]) = 0
      · rw [if_pos hz]; exact demuxInv_reset
      · rw [if_neg hz]
        exact Or.inr ⟨rfl, decodeLen (s.header ++ [b]), rfl, Nat.pos_of_ne_zero hz, by
          simp only []; exact Nat.pos_of_ne_zero hz⟩
    · rw [byteStep_header_mid s b h8 hc]
      exact Or.inl ⟨by simp only []; omega, by simp only []; exact hpbr⟩
  · rw [byteStep_payload s b n h8 hps hlt]
    by_cases hdone : s.payloadBytesRead + 1 = n
    · rw [if_pos hdone]; exact demuxInv_reset
    · rw [if_neg hdone]
      exact Or.inr ⟨h8, n, hps, hpos, by simp only []; omega⟩

theorem byteFold_inv (l : List Nat) :
    ∀ (s : DemuxState), DemuxInv s → DemuxInv (byteFold s l).1 := by
  induction l with
  | nil => intro s hinv; simpa [byteFold] using hinv
  | cons b bs ih =>
    intro s hinv
    simp only [byteFold]
    exact ih _ (byteStep_inv s b hinv)

/-- The 4-byte big-endian encoding of a length below two to the 32 decodes
back to itself in the 8-byte header position. -/
theorem decodeLen_be32 (t p1 p2 p3 n : Nat) (h : n < 4294967296) :
    decodeLen ([t, p1, p2, p3] ++ be32 n) = n := by
  simp only [be32, List.cons_append, List.nil_append, decodeLen]
  omega

/-- Feeding one whole encoded frame to the byte machine from a fresh state
emits exactly its payload and returns to the reset state. -/
theorem byteFold_frame (s : DemuxState) (f : Frame)
    (hh : s.headerBytesRead = 0) (hp : s.payloadBytesRead = 0) (he : s.header = [])
    (hlen : f.payload.length < 4294967296) :
    byteFold s (encodeFrame f) = (resetDemux, f.payload) := by
  have hhdr : encodeFrame f =
      ([f.streamType, f.pad1, f.pad2, f.pad3] ++ be32 f.payload.length) ++ f.payload := by
    simp [encodeFrame]
  have hhdr_len : ([f.streamType, f.pad1, f.pad2, f.pad3] ++ be32 f.payload.length).length = 8 := by
    simp [be32]
  have hfill : s.headerBytesRead +
      ([f.streamType, f.pad1, f.pad2, f.pad3] ++ be32 f.payload.length).length = 8 := by
    rw [hhdr_len]; omega
  have hdec : decodeLen (s.header ++
      ([f.streamType, f.pad1, f.pad2, f.pad3] ++ be32 f.payload.length)) = f.payload.length := by
    rw [he, List.nil_append]
    exact decodeLen_be32 _ _ _ _ _ hlen
  rw [hhdr, byteFold_append,
    byteFold_header_fill _ s hfill hp (by simp)]
  by_cases hz : f.payload.length = 0
  · have hpl : f.payload = [] := List.length_eq_zero.mp hz
    rw [hdec, if_pos hz]
    simp [hpl, byteFold]
  · rw [hdec, if_neg hz]
    simp only []
    rw [byteFold_payload_run_full f.payload _ f.payload.length rfl rfl (by simp) (by
      intro hc; rw [hc] at hz; simp at hz)]
    simp

/-- Feeding a whole encoded frame sequence to the byte machine from a fresh
state emits exactly the concatenation of the payloads. -/
theorem byteFold_stream (fs : List Frame) :
    ∀ (s : DemuxState), s.headerBytesRead = 0 → s.payloadBytesRead = 0 → s.header = [] →
      (∀ f ∈ fs, f.payload.length < 4294967296) →
      (byteFold s (encodeStream fs)).2 = concatPayloads fs := by
  induction fs with
  | nil => intro s _ _ _ _; simp [encodeStream, concatPayloads, byteFold]
  | cons f fs ih =>
    intro s hh hp he hlen
    have hstream : encodeStream (f :: fs) = encodeFrame f ++ encodeStream fs := by
      simp [encodeStream]
    rw [hstream, byteFold_append,
      byteFold_frame s f hh hp he (hlen f (by simp))]
    simp only []
    rw [ih resetDemux rfl rfl rfl (fun g hg => hlen g (by simp [hg]))]
    simp [concatPayloads]

/-- A sequence of `write` calls behaves like running the byte machine over
the concatenation of the chunks, from any reachable state. -/
theorem feedChunks_eq_byteFold (chunks : List (List Nat)) :
    ∀ (s : DemuxState), DemuxInv s → feedChunks s chunks = byteFold s chunks.flatten := by
  induction chunks with
  | nil => intro s _; simp [feedChunks, byteFold]
  | cons c cs ih =>
    intro s hinv
    have hw : demuxWrite s c = byteFold s c :=
      writeLoop_eq_byteFold c.length s c hinv le_rfl
    simp only [feedChunks, hw]
    rw [ih _ (byteFold_inv c s hinv)]
    rw [List.flatten_cons, byteFold_append]

/-- C1: for every sequence of frames (8-byte header: 1 type byte, 3 padding
bytes, 4-byte big-endian payload length, followed by that many payload
bytes) and for every partition of the encoded byte stream into non-empty
chunks, feeding the chunks in order to the write method of the
demultiplexer adapter delivers exactly the concatenation of the frame
payloads, in order, to the downstream adapter, regardless of where the
chunk boundaries fall relative to header and payload boundaries (including
zero-length payloads and multiple frames completed in a single call). -/
theorem demux_chunk_boundary_fidelity (fs : List Frame) (chunks : List (List Nat))
    (hlen : ∀ f ∈ fs, f.payload.length < 4294967296)
    (hne : ∀ c ∈ chunks, c ≠ [])
    (hconcat : chunks.flatten = encodeStream fs) :
    (feedChunks initDemux chunks).2 = concatPayloads fs := by
  rw [feedChunks_eq_byteFold chunks initDemux demuxInv_init, hconcat]
  exact byteFold_stream fs initDemux rfl rfl rfl hlen

/-- Witness for C1: three frames (one with a two-byte payload, one with a
zero-length payload, one with junk padding bytes and a one-byte payload)
cut into five ragged chunks that split both headers and payloads. -/
theorem demux_chunk_boundary_fidelity_witness :
    (∀ c ∈ [[2, 0, 0], [0, 0, 0, 0, 2, 10], [11, 1, 0, 0, 0, 0, 0, 0],
        [0, 2, 9, 9, 9, 0, 0, 0, 1], [30]], c ≠ ([] : List Nat)) ∧
    (feedChunks initDemux
      [[2, 0, 0], [0, 0, 0, 0, 2, 10], [11, 1, 0, 0, 0, 0, 0, 0],
        [0, 2, 9, 9, 9, 0, 0, 0, 1], [30]]).2 =
      concatPayloads [⟨2, 0, 0, 0, [10, 11]⟩, ⟨1, 0, 0, 0, []⟩, ⟨2, 9, 9, 9, [30]⟩] :=
  ⟨by decide,
    demux_chunk_boundary_fidelity
      [⟨2, 0, 0, 0, [10, 11]⟩, ⟨1, 0, 0, 0, []⟩, ⟨2, 9, 9, 9, [30]⟩]
      [[2, 0, 0], [0, 0, 0, 0, 2, 10], [11, 1, 0, 0, 0, 0, 0, 0],
        [0, 2, 9, 9, 9, 0, 0, 0, 1], [30]]
      (by decide) (by decide) (by decide)⟩

/-! ### The multiplexing select loop (girder_worker/core/utils.py, select_loop)

The loop drives a list of read connectors and a list of write connectors.
For the claims about connector close bookkeeping and about the order of
exit-predicate evaluation and polling, a connector is abstracted to an
identity plus the observable outcome of each successive read or write step
on it.  This mirrors ReadStreamConnector.read and WriteStreamConnector.write
(girder_worker/plugins/docker/tasks/io.py, lines 62-80 and 116-133): a step
either forwards a non-empty buffer and returns what the output write
returned, or hits end of stream, closes the connector itself and returns 0,
or raises. -/

/-- Observable outcome of one read or write step of a connector.  In the
`chunk` case `retZero` records whether the value the step returned compares
equal to 0 in Python; the push adapters and writers in the repository
return `None` or a positive byte count for a non-empty buffer, so for
behaviours realizable by this code `retZero` is false. -/
inductive StepOut where
  | chunk (retZero : Bool)
  | eof
  | exc
  deriving Repr, DecidableEq

/-- A connector as the loop sees it: an identity and the outcome of its
k-th step. -/
structure Conn where
  id : Nat
  step : Nat → StepOut

/-- Python list.remove on a connector list: removes the first element equal
to (here: with the identity of) the given one. -/
def removeFirstById (i : Nat) : List Conn → List Conn
  | [] => []
  | c :: cs => if c.id = i then cs else c :: removeFirstById i cs

/-- Driving each ready connector once, in order, mirroring the two `for`
loops of `select_loop` (lines 236-247): bump the call counter, and on a
result comparing equal to 0 remove the connector from the active list
(`read == 0` / `written == 0`); a step that hits end of stream has already
closed the connector inside `read`/`write` before returning 0.  An
exception aborts the iteration immediately.  Returns the new active list,
call counters, close log, and whether an exception escaped. -/
def procReady : List Conn → List Conn → (Nat → Nat) → List Nat →
    (List Conn × (Nat → Nat) × List Nat × Bool)
  | [], active, calls, closes => (active, calls, closes, false)
  | c :: rest, active, calls, closes =>
    let out := c.step (calls c.id)
    let calls' := fun j => if j = c.id then calls j + 1 else calls j
    match out with
    | .exc => (active, calls', closes, true)
    | .eof => procReady rest (removeFirstById c.id active) calls' (closes ++ [c.id])
    | .chunk rz =>
      if rz then procReady rest (removeFirstById c.id active) calls' closes
      else procReady rest active calls' closes

/-- The environment of one run of the loop: which connectors the poll
reports readable or writable at each iteration, and the value of the exit
condition at each evaluation. -/
structure Sched where
  rsel : Nat → Nat → Bool
  wsel : Nat → Nat → Bool
  exitc : Nat → Bool

/-- Result of running the loop: `broke` when the loop left through its
normal break, `raised` when a connector step raised, `running` when the
iteration budget ran out with the loop still going.  In the first two cases
the close log includes the unconditional close phase of the `finally` block
(lines 259-261); in the `running` case the loop has not reached `finally`.
The second component counts poll calls performed. -/
inductive RunOut where
  | broke (closes : List Nat) (polls : Nat)
  | raised (closes : List Nat) (polls : Nat)
  | running (closes : List Nat) (polls : Nat)

/-- The `while True` loop of `select_loop` (lines 227-261): evaluate the
exit condition first, poll, drive ready readers then ready writers for one
step each, open the writers, and break only when nothing is pending and the
exit condition held at the top of the iteration; on every exit path run the
close phase of the `finally` block over the connectors still registered. -/
def selectLoopRun (sched : Sched) : Nat → Nat → List Conn → List Conn →
    (Nat → Nat) → List Nat → Nat → RunOut
  | 0, _, _, _, _, closes, polls => .running closes polls
  | fuel + 1, iter, readers, writers, calls, closes, polls =>
    -- exit = exit_condition() (line 231), evaluated before the poll
    let exitF := sched.exitc iter
    -- readable, writable = select.select(readers, writers, (), 0.1) (line 234)
    let readable := readers.filter fun c => sched.rsel iter c.id
    let writable := writers.filter fun c => sched.wsel iter c.id
    let polls' := polls + 1
    let pr := procReady readable readers calls closes
    if pr.2.2.2 then
      .raised (pr.2.2.1 ++ (pr.1 ++ writers).map Conn.id) polls'
    else
      let pw := procReady writable writers pr.2.1 pr.2.2.1
      if pw.2.2.2 then
        .raised (pw.2.2.1 ++ (pr.1 ++ pw.1).map Conn.id) polls'
      else
        -- writer.open() for each writer (lines 250-251): no close effect
        -- empty = (not readers or not readable) and (not writers or not writable)
        let empty := (pr.1.isEmpty || readable.isEmpty) &&
          (pw.1.isEmpty || writable.isEmpty)
        if empty && exitF then
          .broke (pw.2.2.1 ++ (pr.1 ++ pw.1).map Conn.id) polls'
        else
          selectLoopRun sched fuel (iter + 1) pr.1 pw.1 pw.2.1 pw.2.2.1 polls'

theorem removeFirstById_subset (i : Nat) (l : List Conn) :
    ∀ c, c ∈ removeFirstById i l → c ∈ l := by
  induction l with
  | nil => intro c h; simp [removeFirstById] at h
  | cons d ds ih =>
    intro c h
    by_cases hd : d.id = i
    · simp [removeFirstById, hd] at h
      exact List.mem_cons_of_mem d h
    · simp [removeFirstById, hd] at h
      rcases h with h | h
      · exact h ▸ List.mem_cons_self d ds
      · exact List.mem_cons_of_mem d (ih c h)

theorem count_removeFirstById (i : Nat) (l : List Conn)
    (h : i ∈ l.map Conn.id) (x : Nat) :
    ((removeFirstById i l).map Conn.id).count x + (if x = i then 1 else 0) =
      (l.map Conn.id).count x := by
  induction l with
  | nil => simp at h
  | cons d ds ih =>
    by_cases hd : d.id = i
    · simp only [removeFirstById, if_pos hd, List.map_cons, List.count_cons, hd]
      by_cases hx : x = i <;> simp [hx] <;> omega
    · have h' : i ∈ ds.map Conn.id := by
        simp at h; rcases h with h | h
        · exact absurd h.symm hd
        · simpa using h
      simp only [removeFirstById, if_neg hd, List.map_cons, List.count_cons]
      rw [← ih h']
      by_cases hx : d.id = x <;> simp [hx] <;> omega

theorem mem_removeFirstById_ids (i x : Nat) (l : List Conn)
    (hi : i ∈ l.map Conn.id) (hx : x ∈ l.map Conn.id) (hne : x ≠ i) :
    x ∈ (removeFirstById i l).map Conn.id := by
  have := count_removeFirstById i l hi x
  rw [if_neg hne] at this
  have hc : 0 < (l.map Conn.id).count x := List.count_pos_iff.mpr hx
  have : 0 < ((removeFirstById i l).map Conn.id).count x := by omega
  exact List.count_pos_iff.mp this

theorem nodup_removeFirstById (i : Nat) (l : List Conn)
    (h : (l.map Conn.id).Nodup) : ((removeFirstById i l).map Conn.id).Nodup := by
  induction l with
  | nil => simp [removeFirstById]
  | cons d ds ih =>
    rw [List.map_cons, List.nodup_cons] at h
    by_cases hd : d.id = i
    · simp only [removeFirstById, if_pos hd]
      exact h.2
    · simp only [removeFirstById, if_neg hd, List.map_cons, List.nodup_cons]
      refine ⟨fun hmem => ?_, ih h.2⟩
      have : d.id ∈ ds.map Conn.id := by
        rcases List.mem_map.mp hmem with ⟨c, hc, hcid⟩
        exact hcid ▸ List.mem_map_of_mem Conn.id (removeFirstById_subset i ds c hc)
      exact h.1 this

/-- Count bookkeeping for one pass over the ready list: every connector the
pass drops from the active list is logged as closed at the same moment
(eof closes inside the read step), provided no step returns a buffer that
compares equal to 0 (true of every adapter in the repository). -/
theorem procReady_spec (ready : List Conn) :
    ∀ (active : List Conn) (calls : Nat → Nat) (closes : List Nat),
      (ready.map Conn.id).Nodup →
      (∀ c ∈ ready, c.id ∈ active.map Conn.id) →
      (active.map Conn.id).Nodup →
      (∀ c ∈ ready, ∀ k, c.step k ≠ .chunk true) →
      (∀ x, (procReady ready active calls closes).2.2.1.count x +
          ((procReady ready active calls closes).1.map Conn.id).count x =
        closes.count x + (active.map Conn.id).count x) ∧
      (∀ c ∈ (procReady ready active calls closes).1, c ∈ active) ∧
      ((procReady ready active calls closes).1.map Conn.id).Nodup := by
  induction ready with
  | nil =>
    intro active calls closes _ _ han _
    exact ⟨fun x => by simp [procReady], fun c hc => by simpa [procReady] using hc, by
      simpa [procReady] using han⟩
  | cons c rest ih =>
    intro active calls closes hrn hrsub han hbeh
    have hcid : c.id ∈ active.map Conn.id := hrsub c (List.mem_cons_self c rest)
    rw [List.map_cons, List.nodup_cons] at hrn
    have hrn' : (rest.map Conn.id).Nodup := hrn.2
    have hcnotin : c.id ∉ rest.map Conn.id := hrn.1
    cases hout : c.step (calls c.id) with
    | exc =>
      simp only [procReady, hout]
      exact ⟨fun x => by simp, fun d hd => hd, han⟩
    | eof =>
      simp only [procReady, hout]
      have hsub' : ∀ d ∈ rest, d.id ∈ (removeFirstById c.id active).map Conn.id := by
        intro d hd
        have hdid : d.id ∈ active.map Conn.id := hrsub d (List.mem_cons_of_mem c hd)
        have hdne : d.id ≠ c.id := fun h => hcnotin (h ▸ List.mem_map_of_mem Conn.id hd)
        exact mem_removeFirstById_ids c.id d.id active hcid hdid hdne
      have han' := nodup_removeFirstById c.id active han
      have hbeh' : ∀ d ∈ rest, ∀ k, d.step k ≠ .chunk true :=
        fun d hd => hbeh d (List.mem_cons_of_mem c hd)
      obtain ⟨h1, h2, h3⟩ := ih (removeFirstById c.id active) _ (closes ++ [c.id])
        hrn' hsub' han' hbeh'
      refine ⟨fun x => ?_, fun d hd => removeFirstById_subset c.id active d (h2 d hd), h3⟩
      have hcnt := count_removeFirstById c.id active hcid x
      have h1x := h1 x
      rw [List.count_append] at h1x
      by_cases hx : x = c.id
      · subst hx
        rw [if_pos rfl] at hcnt
        have hone : List.count c.id [c.id] = 1 := by simp
        rw [hone] at h1x
        omega
      · rw [if_neg hx] at hcnt
        have hzero : List.count x [c.id] = 0 :=
          List.count_eq_zero_of_not_mem (by simp [hx])
        rw [hzero] at h1x
        omega
    | chunk rz =>
      have hrzf : rz = false := by
        have := hbeh c (List.mem_cons_self c rest) (calls c.id)
        rw [hout] at this
        cases rz with
        | true => exact absurd rfl this
        | false => rfl
      subst hrzf
      simp only [procReady, hout, if_neg (by simp : ¬ (false = true))]
      exact ih active _ closes hrn'
        (fun d hd => hrsub d (List.mem_cons_of_mem c hd)) han
        (fun d hd => hbeh d (List.mem_cons_of_mem c hd))

/-- Close bookkeeping across the whole loop: whenever the run reaches the
close phase of the `finally` block (normal break or a propagating step
exception), the final close log counts every id exactly as often as the
prior log plus the current registration lists do. -/
theorem selectLoopRun_closes (fuel : Nat) :
    ∀ (sched : Sched) (iter : Nat) (readers writers : List Conn)
      (calls : Nat → Nat) (closes : List Nat) (polls : Nat) (out : List Nat) (p : Nat),
      (readers.map Conn.id).Nodup →
      (writers.map Conn.id).Nodup →
      (∀ c ∈ readers ++ writers, ∀ k, c.step k ≠ .chunk true) →
      (selectLoopRun sched fuel iter readers writers calls closes polls = .broke out p ∨
       selectLoopRun sched fuel iter readers writers calls closes polls = .raised out p) →
      ∀ x, out.count x =
        closes.count x + ((readers ++ writers).map Conn.id).count x := by
  induction fuel with
  | zero =>
    intro sched iter readers writers calls closes polls out p _ _ _ hrun x
    rcases hrun with h | h <;> simp [selectLoopRun] at h
  | succ fuel ih =>
    intro sched iter readers writers calls closes polls out p hrn hwn hbeh hrun x
    have hspecR := procReady_spec (readers.filter fun c => sched.rsel iter c.id)
      readers calls closes
      (List.Nodup.sublist ((List.filter_sublist readers).map Conn.id) hrn)
      (fun c hc => List.mem_map_of_mem Conn.id (List.mem_of_mem_filter hc))
      hrn
      (fun c hc k => hbeh c (List.mem_append_left _ (List.mem_of_mem_filter hc)) k)
    rcases hpr : procReady (readers.filter fun c => sched.rsel iter c.id)
        readers calls closes with ⟨readers', calls', closes', flag⟩
    simp only [hpr] at hspecR
    obtain ⟨hRcnt, hRsub, hRnd⟩ := hspecR
    simp only [selectLoopRun, hpr] at hrun
    cases flag with
    | true =>
      have hout : out = closes' ++ (readers' ++ writers).map Conn.id := by
        rw [if_pos rfl] at hrun
        rcases hrun with h | h
        · simp at h
        · rw [RunOut.raised.injEq] at h; exact h.1.symm
      subst hout
      have h1 := hRcnt x
      simp only [List.count_append, List.map_append] at h1 ⊢
      omega
    | false =>
      rw [if_neg (by simp)] at hrun
      have hspecW := procReady_spec (writers.filter fun c => sched.wsel iter c.id)
        writers calls' closes'
        (List.Nodup.sublist ((List.filter_sublist writers).map Conn.id) hwn)
        (fun c hc => List.mem_map_of_mem Conn.id (List.mem_of_mem_filter hc))
        hwn
        (fun c hc k => hbeh c (List.mem_append_right _ (List.mem_of_mem_filter hc)) k)
      rcases hpw : procReady (writers.filter fun c => sched.wsel iter c.id)
          writers calls' closes' with ⟨writers', calls'', closes'', flag2⟩
      simp only [hpw] at hspecW
      obtain ⟨hWcnt, hWsub, hWnd⟩ := hspecW
      simp only [hpw] at hrun
      cases flag2 with
      | true =>
        have hout : out = closes'' ++ (readers' ++ writers').map Conn.id := by
          rw [if_pos rfl] at hrun
          rcases hrun with h | h
          · simp at h
          · rw [RunOut.raised.injEq] at h; exact h.1.symm
        subst hout
        have h1 := hRcnt x
        have h2 := hWcnt x
        simp only [List.count_append, List.map_append] at h1 h2 ⊢
        omega
      | false =>
        rw [if_neg (by simp)] at hrun
        have hbeh' : ∀ c ∈ readers' ++ writers', ∀ k, c.step k ≠ .chunk true := by
          intro c hc k
          rcases List.mem_append.mp hc with h | h
          · exact hbeh c (List.mem_append_left _ (hRsub c h)) k
          · exact hbeh c (List.mem_append_right _ (hWsub c h)) k
        cases hcond : (((readers'.isEmpty ||
              (List.filter (fun c => sched.rsel iter c.id) readers).isEmpty) &&
            (writers'.isEmpty ||
              (List.filter (fun c => sched.wsel iter c.id) writers).isEmpty)) &&
            sched.exitc iter) with
        | true =>
          rw [hcond, if_pos rfl] at hrun
          have hout : out = closes'' ++ (readers' ++ writers').map Conn.id := by
            rcases hrun with h | h
            · rw [RunOut.broke.injEq] at h; exact h.1.symm
            · simp at h
          subst hout
          have h1 := hRcnt x
          have h2 := hWcnt x
          simp only [List.count_append, List.map_append] at h1 h2 ⊢
          omega
        | false =>
          rw [hcond, if_neg (by simp)] at hrun
          have := ih sched (iter + 1) readers' writers' calls'' closes'' (polls + 1)
            out p hRnd hWnd hbeh' hrun x
          have h1 := hRcnt x
          have h2 := hWcnt x
          simp only [List.count_append, List.map_append] at h1 h2 this ⊢
          omega

/-- C4: for every execution of the multiplexing select loop that reaches an
exit path — the normal break (which is also how cancellation leaves the
loop) or an exception propagating out of a connector read or write step —
every connector passed to the loop has close called on it exactly once:
either inside the step that hit end of stream (after which it leaves the
active list), or in the unconditional close phase of the finally block, and
never both.  The hypotheses state that connector identities are distinct
and that no step forwards a buffer while returning a value that compares
equal to 0, which holds for every adapter and writer in the repository
(they return None or a positive byte count for a non-empty buffer). -/
theorem select_loop_closes_each_connector_once
    (sched : Sched) (fuel : Nat) (readers writers : List Conn)
    (out : List Nat) (p : Nat)
    (hnodup : ((readers ++ writers).map Conn.id).Nodup)
    (hbeh : ∀ c ∈ readers ++ writers, ∀ k, c.step k ≠ .chunk true)
    (hterm : selectLoopRun sched fuel 0 readers writers (fun _ => 0) [] 0 = .broke out p ∨
             selectLoopRun sched fuel 0 readers writers (fun _ => 0) [] 0 = .raised out p) :
    ∀ c ∈ readers ++ writers, out.count c.id = 1 := by
  intro c hc
  rw [List.map_append] at hnodup
  have hrn : (readers.map Conn.id).Nodup := hnodup.of_append_left
  have hwn : (writers.map Conn.id).Nodup := hnodup.of_append_right
  have hcnt := selectLoopRun_closes fuel sched 0 readers writers (fun _ => 0) [] 0 out p
    hrn hwn hbeh hterm c.id
  rw [List.count_nil] at hcnt
  rw [hcnt, Nat.zero_add, List.map_append]
  exact List.count_eq_one_of_mem (by rw [← List.map_append]; rw [List.map_append]; exact hnodup)
    (by rw [← List.map_append]; exact List.mem_map_of_mem Conn.id hc)

/-- Witness for C4: one reader connector that reports end of stream on its
first step, no writers, an always-ready always-exiting schedule; the run
breaks after one pass and the connector id 1 appears exactly once in the
close log. -/
theorem select_loop_closes_each_connector_once_witness :
    ([1] : List Nat).count 1 = 1 := by
  have h := select_loop_closes_each_connector_once
    ⟨fun _ _ => true, fun _ _ => true, fun _ => true⟩ 1
    [⟨1, fun _ => StepOut.eof⟩] [] [1] 1
    (by simp)
    (by
      intro c hc k
      have hc' : c = ⟨1, fun _ => StepOut.eof⟩ := by simpa using hc
      subst hc'
      simp)
    (Or.inl rfl)
    ⟨1, fun _ => StepOut.eof⟩ (by simp)
  simpa using h

/-- C5: the loop evaluates the exit condition before polling, so with empty
reader and writer sets and an exit predicate that is false on its first
evaluation and true on all later ones, the loop runs exactly two poll
passes before breaking — in particular it performs at least one full poll
pass (the final drain pass) after the predicate first becomes true, and
never exits without having polled. -/
theorem select_loop_final_drain_pass (sched : Sched) (fuel : Nat)
    (h0 : sched.exitc 0 = false) (h1 : ∀ i, 1 ≤ i → sched.exitc i = true)
    (hfuel : 2 ≤ fuel) :
    selectLoopRun sched fuel 0 [] [] (fun _ => 0) [] 0 = .broke [] 2 := by
  obtain ⟨f, rfl⟩ : ∃ f, fuel = f + 2 := ⟨fuel - 2, by omega⟩
  simp [selectLoopRun, procReady, h0, h1 1 le_rfl]

/-- Witness for C5: the exit predicate that is false at iteration 0 and
true afterwards, with two iterations of budget. -/
theorem select_loop_final_drain_pass_witness :
    selectLoopRun ⟨fun _ _ => false, fun _ _ => false, fun i => decide (1 ≤ i)⟩ 2 0 [] []
      (fun _ => 0) [] 0 = .broke [] 2 :=
  select_loop_final_drain_pass ⟨fun _ _ => false, fun _ _ => false, fun i => decide (1 ≤ i)⟩ 2
    (by decide) (fun i hi => decide_eq_true hi) le_rfl

/-! ### Stream connector close order
(girder_worker/plugins/docker/tasks/io.py, WriteStreamConnector.close lines
89-94 and ReadStreamConnector.close lines 141-146)

A connector owns an input end and an output end; close on the connector is
a sequence of close calls on the two ends.  The embedding records the
sequence of ends closed. -/

/-- The two ends of a stream connector. -/
structure SConn (α : Type) where
  input : α
  output : α

/-- WriteStreamConnector.close (lines 89-94): the body is
output.close() followed by input.close(). -/
def writeStreamCloseOrder {α : Type} (c : SConn α) : List α :=
  [c.output, c.input]

/-- ReadStreamConnector.close (lines 141-146): the docstring says the
output side is closed first, but the body is input.close() followed by
output.close(). -/
def readStreamCloseOrder {α : Type} (c : SConn α) : List α :=
  [c.input, c.output]

/-- C6 (code_bug): the claim says both connector variants close the output
end before the input end.  The write-side variant does, but the read-side
variant closes the input end first, contradicting its own docstring
(lines 142-144: closes the output side, followed by the input side); at any
connector whose two ends are distinct, its close sequence is not
output-first. -/
theorem read_stream_connector_closes_input_first :
    writeStreamCloseOrder (SConn.mk 0 1) = [1, 0] ∧
    readStreamCloseOrder (SConn.mk 0 1) = [0, 1] ∧
    readStreamCloseOrder (SConn.mk 0 1) ≠ [1, 0] := by
  refine ⟨rfl, rfl, ?_⟩
  decide

/-! ### The cancellation stop-retry loop
(girder_worker/docker/tasks/__init__.py, _run_select_loop lines 125-143)

After a canceled run, container.stop() may raise a requests ReadTimeout;
the handler sets tries = 10 and loops `while tries > 0`, reloading the
container status and breaking when it reads exited.  The loop body never
changes tries, so the embedding threads tries through the body unchanged. -/

/-- Effect of one body pass of the retry loop on the `tries` counter: no
statement in the body (lines 134-136) assigns to it. -/
def stopRetryBodyTries (tries : Nat) : Nat := tries

/-- Result of observing the retry loop for a bounded number of body passes:
`broke` with the number of reloads when a reload reported exited, `guard`
when the `tries > 0` guard failed, `running` when the loop was still going
after the observation budget. -/
inductive StopRetryOut where
  | broke (reloads : Nat)
  | guard (reloads : Nat)
  | running (reloads : Nat)
  deriving Repr, DecidableEq

/-- The retry loop (lines 132-136): `status i` is what container.status
reads after the i-th reload. -/
def stopRetryLoop (status : Nat → String) : Nat → Nat → Nat → StopRetryOut
  | 0, _, i => .running i
  | fuel + 1, tries, i =>
    if tries > 0 then
      if status i = "exited" then .broke (i + 1)
      else stopRetryLoop status fuel (stopRetryBodyTries tries) (i + 1)
    else .guard i

/-- C3 (code_bug): the claim says the orchestrator re-polls container
status at most a fixed, bounded number of times — the retry loop always
terminates.  The loop is written as `tries = 10; while tries > 0:` with a
break on status exited, but `tries` is never decremented, so for a
container whose status never becomes exited the loop never terminates: for
every observation budget it is still running, having reloaded once per
pass.  The bounded-retry claim matches the evident intent of
`tries = 10` and of the error-logging check after the loop, so the code,
not the claim, is wrong. -/
theorem stop_retry_loop_never_terminates (fuel start : Nat) :
    stopRetryLoop (fun _ => "running") fuel 10 start = .running (start + fuel) := by
  induction fuel generalizing start with
  | zero => simp [stopRetryLoop]
  | succ f ih =>
    simp only [stopRetryLoop, stopRetryBodyTries]
    rw [if_pos (by omega), if_neg (by simp)]
    rw [ih (start + 1)]
    have : start + 1 + f = start + (f + 1) := by omega
    rw [this]

/-! ### Temp volume cleanup after a docker task
(girder_worker/docker/tasks/__init__.py, DockerTask.__call__ lines 183-224)

The call method builds `temp_volumes`, the user-supplied TemporaryVolume
instances found in the volumes list, constructs the per-run default
temporary volume (whose host directory is created eagerly by
tempfile.mkdtemp in the constructor of _DefaultTemporaryVolume), runs the
task body, and then executes the cleanup block of lines 214-224.  The
cleanup block runs only if the body returned normally; the embedding below
is that block. -/

/-- A user-supplied temporary volume as the cleanup block sees it: its host
path and whether os.path.exists reports the path. -/
structure TVol where
  hostPath : String
  existsOnHost : Bool

/-- The per-run default temporary volume: its host path (the directory was
created by mkdtemp when the object was constructed, at the start of the
run) and its `_transformed` flag. -/
structure DefaultTV where
  hostPath : String
  transformed : Bool

/-- Filesystem actions the cleanup block performs, in order. -/
inductive CleanupAction where
  | chmodWritable (paths : List String)
  | rmtree (path : String)
  deriving Repr, DecidableEq

/-- The cleanup block (lines 214-224): filter the user temp volumes to the
ones whose host path exists; if any remain, chmod them (plus the default
volume if it was transformed) and then rmtree each of them plus,
unconditionally, the default volume.  If none remain, do nothing at all. -/
def dockerTaskCleanup (tempVolumes : List TVol) (defaultV : DefaultTV) :
    List CleanupAction :=
  let tempVolumes := tempVolumes.filter (·.existsOnHost)
  if tempVolumes.length > 0 then
    CleanupAction.chmodWritable
        (tempVolumes.map (·.hostPath) ++
          (if defaultV.transformed then [defaultV.hostPath] else [])) ::
      (tempVolumes.map (·.hostPath) ++ [defaultV.hostPath]).map CleanupAction.rmtree
  else []

/-- C2 (code_bug): the claim says that after every run, every temporary
volume that was materialized is chmod-normalized and then recursively
removed.  When the task was invoked with no user-supplied TemporaryVolume
(the common case), the guard `len(temp_volumes) > 0` skips the whole
cleanup block, so the default temporary volume — whose host directory was
created by mkdtemp at the start of the run and which was mounted into the
container — is neither chmod-ed nor removed.  The unconditional
`temp_volumes + [self.request._temp_volume]` in the removal list shows the
intent was to always remove it, so the code, not the claim, is wrong.
(Independently, the cleanup block runs only when the task body returns
normally: there is no try/finally, so a failed run also skips it.) -/
theorem docker_task_cleanup_skips_default_volume (p : String) (b : Bool) :
    dockerTaskCleanup [] ⟨p, b⟩ = [] ∧
    CleanupAction.rmtree p ∉ dockerTaskCleanup [] ⟨p, b⟩ := by
  constructor
  · rfl
  · intro h
    simp [dockerTaskCleanup] at h

/-! ### Container argument token expansion
(girder_worker/plugins/docker/executor.py, _expand_args lines 33-76)

Python strings are modelled as lists of characters.  `tokenFindall kw`
embeds `re.findall` for the pattern dollar-kw-braces with a non-empty
capture of characters other than the closing brace, as used by _flagRe,
_inputRe and _outputRe (lines 10-12); `pyReplace` embeds str.replace
(all non-overlapping occurrences, left to right).  `expandFlagArgs` embeds
the flag-token pass of `_expand_args` (lines 59-66) together with the skip
bookkeeping and the final append (lines 48-49 and 73-74); on arguments in
which `tokenFindall` for input and output tokens finds nothing, the other
two passes of `_expand_args` leave the argument unchanged, so this pass is
the whole behaviour of `_expand_args` on such arguments. -/

/-- Split a character list at the first closing brace: returns the capture
before it and the rest after it, or none when no closing brace occurs. -/
def splitAtRBrace : List Char → Option (List Char × List Char)
  | [] => none
  | c :: cs =>
    if c = '}' then some ([], cs)
    else
      match splitAtRBrace cs with
      | none => none
      | some (id, r) => some (c :: id, r)

theorem splitAtRBrace_shrinks : ∀ (l id r : List Char),
    splitAtRBrace l = some (id, r) → r.length < l.length := by
  intro l
  induction l with
  | nil => intro id r h; simp [splitAtRBrace] at h
  | cons c cs ih =>
    intro id r h
    by_cases hc : c = '}'
    · simp [splitAtRBrace, hc] at h
      simp [← h.2]
    · simp only [splitAtRBrace, if_neg hc] at h
      cases hsp : splitAtRBrace cs with
      | none => rw [hsp] at h; simp at h
      | some pr =>
        rw [hsp] at h
        simp at h
        have := ih pr.1 pr.2 (by rw [hsp])
        have hr : r = pr.2 := by rw [← h.2]
        rw [hr]
        simp
        omega

/-- The marker that opens a token: a dollar sign, the keyword, an opening
brace. -/
def tokenOpen (kw : List Char) : List Char := '$' :: (kw ++ ['{'])

/-- re.findall for the token pattern of _flagRe, _inputRe, _outputRe: scan
left to right; at a position starting with dollar-kw-open-brace and
followed by a non-empty brace-free capture and a closing brace, record the
capture and resume after the closing brace, else advance one character. -/
def tokenFindall (kw : List Char) : Nat → List Char → List (List Char)
  | 0, _ => []
  | _ + 1, [] => []
  | fuel + 1, s@(_ :: rest) =>
    if (tokenOpen kw).isPrefixOf s then
      match splitAtRBrace (s.drop (tokenOpen kw).length) with
      | some (id, r) =>
        if id = [] then tokenFindall kw fuel rest
        else id :: tokenFindall kw fuel r
      | none => tokenFindall kw fuel rest
    else tokenFindall kw fuel rest

/-- Entry point supplying enough fuel (one unit per character suffices
because every recursive call drops at least one character). -/
def findTokens (kw : List Char) (s : List Char) : List (List Char) :=
  tokenFindall kw s.length s

/-- str.replace: replace every non-overlapping occurrence of `pat` in the
subject, left to right.  The replacement is only invoked with the
non-empty pattern dollar-kw-brace-id-brace, so the empty-pattern behaviour
of Python (interleaving) is never exercised; fuel equal to the subject
length suffices. -/
def replaceAllF (pat repl : List Char) : Nat → List Char → List Char
  | _, [] => []
  | 0, s => s
  | fuel + 1, s@(c :: cs) =>
    if pat ≠ [] ∧ pat.isPrefixOf s then repl ++ replaceAllF pat repl fuel (s.drop pat.length)
    else c :: replaceAllF pat repl fuel cs

def pyReplace (s pat repl : List Char) : List Char :=
  replaceAllF pat repl s.length s

/-- The full text of a flag token for a given id. -/
def flagToken (id : List Char) : List Char := tokenOpen ['f', 'l', 'a', 'g'] ++ id ++ ['}']

/-- The binding environment of the flag pass: `boundTruthy id` is the
Python test `inputId in inputs and inputs[inputId][sd]` over the
script_data field, and `argOf id` is `taskInputs[inputId].get(arg_key, inputId)`,
the replacement text used when the test is truthy. -/
structure FlagEnv where
  boundTruthy : List Char → Bool
  argOf : List Char → List Char

/-- The flag loop of `_expand_args` on one argument (lines 59-66): for each
found id, in order, replace every occurrence of the token with the bound
text or the empty string, and set the skip flag if the argument has become
empty. -/
def processFlagTokens (env : FlagEnv) (arg : List Char) : List Char × Bool :=
  (findTokens ['f', 'l', 'a', 'g'] arg).foldl
    (fun acc id =>
      let val := if env.boundTruthy id then env.argOf id else []
      let arg' := pyReplace acc.1 (flagToken id) val
      (arg', acc.2 || decide (arg' = [])))
    (arg, false)

/-- The flag-token pass of `_expand_args` over the argument list (lines
47-48, 59-66, 73-74): each argument is processed and appended to the result
unless its skip flag was set. -/
def expandFlagArgs (env : FlagEnv) : List (List Char) → List (List Char)
  | [] => []
  | arg :: args =>
    let r := processFlagTokens env arg
    if r.2 then expandFlagArgs env args
    else r.1 :: expandFlagArgs env args

/-- String to character list, for readable statements. -/
def chars (s : String) : List Char := s.toList

-- Sanity checks for the string machinery.
example : findTokens (chars "flag") (chars "-$flag\x7bv\x7d") = [chars "v"] := by decide

example : pyReplace (chars "-$flag\x7bv\x7d") (chars "$flag\x7bv\x7d") [] = chars "-" := by
  decide

example :
    expandFlagArgs ⟨fun _ => false, fun _ => []⟩
      [chars "-$flag\x7bv\x7d", chars "$flag\x7bv\x7d", chars "ok"] =
    [chars "-", chars "ok"] := by decide

example :
    expandFlagArgs ⟨fun _ => true, fun _ => chars "-v"⟩ [chars "$flag\x7bv\x7d"] =
    [chars "-v"] := by decide

theorem splitAtRBrace_append (id r : List Char) (h : '}' ∉ id) :
    splitAtRBrace (id ++ '}' :: r) = some (id, r) := by
  induction id with
  | nil => simp [splitAtRBrace]
  | cons c cs ih =>
    have hc : ¬ c = '}' := fun hc => h (hc ▸ List.mem_cons_self c cs)
    have h' : '}' ∉ cs := fun hm => h (List.mem_cons_of_mem c hm)
    simp only [List.cons_append, splitAtRBrace, if_neg hc, List.append_eq, ih h']

theorem tokenFindall_nil (kw : List Char) (fuel : Nat) :
    tokenFindall kw fuel [] = [] := by
  cases fuel <;> simp [tokenFindall]

/-- Finding the tokens of an argument that is exactly one flag token with a
well-formed id: exactly that id is found. -/
theorem findTokens_flagToken (id : List Char) (hne : id ≠ []) (hnb : '}' ∉ id) :
    findTokens ['f', 'l', 'a', 'g'] (flagToken id) = [id] := by
  have hopen : tokenOpen ['f', 'l', 'a', 'g'] = ['$', 'f', 'l', 'a', 'g', '{'] := by decide
  have hform : flagToken id = ['$', 'f', 'l', 'a', 'g', '{'] ++ (id ++ '}' :: []) := by
    simp [flagToken, tokenOpen, chars]
  have hlen : 1 ≤ (flagToken id).length := by
    rw [hform]; simp
  obtain ⟨f, hf⟩ : ∃ f, (flagToken id).length = f + 1 :=
    ⟨(flagToken id).length - 1, by omega⟩
  have hcons : ∃ c cs, flagToken id = c :: cs := by
    cases hx : flagToken id with
    | nil => rw [hx] at hlen; simp at hlen
    | cons c cs => exact ⟨c, cs, rfl⟩
  obtain ⟨c, cs, hccs⟩ := hcons
  rw [findTokens, hf, hccs]
  have hback : c :: cs = flagToken id := hccs.symm
  simp only [tokenFindall]
  rw [hback, hform]
  have hpre : (tokenOpen ['f', 'l', 'a', 'g']).isPrefixOf
      (['$', 'f', 'l', 'a', 'g', '{'] ++ (id ++ '}' :: [])) = true := by
    rw [hopen]
    exact List.isPrefixOf_iff_prefix.mpr (List.prefix_append _ _)
  rw [if_pos hpre]
  have hdrop : (['$', 'f', 'l', 'a', 'g', '{'] ++ (id ++ '}' :: [])).drop
      (tokenOpen ['f', 'l', 'a', 'g']).length = id ++ '}' :: [] := by
    rw [hopen]
    exact List.drop_left _ _
  rw [hdrop, splitAtRBrace_append id [] hnb]
  simp only [if_neg hne]
  rw [tokenFindall_nil]

theorem replaceAllF_nil (pat repl : List Char) (fuel : Nat) :
    replaceAllF pat repl fuel [] = [] := by
  cases fuel <;> simp [replaceAllF]

/-- Replacing the whole subject by the empty string yields the empty
string. -/
theorem pyReplace_self_empty (s : List Char) (h : s ≠ []) : pyReplace s s [] = [] := by
  cases hs : s with
  | nil => exact absurd hs h
  | cons c cs =>
    subst hs
    rw [pyReplace]
    have hlen : (c :: cs).length = cs.length + 1 := rfl
    rw [hlen]
    simp only [replaceAllF]
    rw [if_pos ⟨h, List.isPrefixOf_iff_prefix.mpr List.prefix_rfl⟩]
    rw [List.drop_eq_nil_of_le (by simp), replaceAllF_nil]
    simp

/-- C7 counterexample: the claim says that any argument containing a flag
token with a falsy binding is dropped entirely.  On the argument
"-$flag(v)" (with braces) under an environment in which v is unbound or
falsy, `_expand_args` replaces the token by the empty string, the argument
"-" is non-empty, the skip flag stays false, and the argument is kept: the
result is ["-"], not []. -/
theorem flag_token_with_text_is_kept :
    expandFlagArgs ⟨fun _ => false, fun _ => []⟩ [chars "-$flag\x7bv\x7d"] = [chars "-"] ∧
    expandFlagArgs ⟨fun _ => false, fun _ => []⟩ [chars "-$flag\x7bv\x7d"] ≠ [] := by
  decide

/-- C7 as amended: a falsy flag token is replaced by the empty string, and
the argument is dropped exactly when the whole argument has thereby become
empty — in particular, an argument that consists of nothing but the flag
token of a falsy (or unbound) id is dropped from the returned list. -/
theorem flag_token_whole_argument_dropped (env : FlagEnv) (id : List Char)
    (hne : id ≠ []) (hnb : '}' ∉ id) (hfalsy : env.boundTruthy id = false) :
    expandFlagArgs env [flagToken id] = [] := by
  have hfl : flagToken id ≠ [] := by
    simp [flagToken, tokenOpen]
  simp only [expandFlagArgs, processFlagTokens]
  rw [findTokens_flagToken id hne hnb]
  simp only [List.foldl, hfalsy, if_neg (by simp : ¬ (false = true))]
  rw [pyReplace_self_empty (flagToken id) hfl]
  simp

/-- Witness for the amended C7: the singleton argument consisting of the
token for the falsy id v is dropped. -/
theorem flag_token_whole_argument_dropped_witness :
    expandFlagArgs ⟨fun _ => false, fun _ => []⟩ [flagToken (chars "v")] = [] :=
  flag_token_whole_argument_dropped ⟨fun _ => false, fun _ => []⟩ (chars "v")
    (by decide) (by decide) rfl

/-! ### Job progress push adapter
(girder_worker/core/utils.py, JobProgressAdapter lines 366-399, and
StreamPushAdapter.close lines 312-316)

The adapter buffers written bytes, splits on newline bytes, parses every
complete line and forwards well-formed JSON objects to
job_manager.updateProgress with the total, current and message fields.
json.loads and the shape of its result are abstracted into a parser
parameter: `err` models a ValueError (line 392-393), `nonObj` a parse
result that is not a dict (lines 395-396), and `obj t c m` a dict whose
doc.get lookups of total, current and message return the given optional
values (lines 398-399). -/

/-- Outcome of json.loads on one line, as _parse distinguishes them. -/
inductive ParseRes (V : Type) where
  | err
  | nonObj
  | obj (total current message : Option V)
  deriving Repr, DecidableEq

/-- One recorded updateProgress(total, current, message) call. -/
def ProgressCall (V : Type) : Type := Option V × Option V × Option V

/-- bytes.split on the newline byte 10: always returns one more piece than
there are newlines, with empty pieces preserved. -/
def pySplit : List Nat → List (List Nat)
  | [] => [[]]
  | b :: bs =>
    match pySplit bs with
    | [] => [[]]
    | h :: t => if b = 10 then [] :: h :: t else (b :: h) :: t

/-- Adapter state: the carry buffer `_buf` and the calls made so far. -/
structure JPState (V : Type) where
  buf : List Nat
  calls : List (ProgressCall V)

/-- Fresh adapter (`__init__`, lines 367-378): empty buffer, no calls. -/
def initJP (V : Type) : JPState V := { buf := [], calls := [] }

/-- The effect of _parse on one complete line (lines 389-399). -/
def parseCall {V : Type} (parse : List Nat → ParseRes V) (line : List Nat) :
    Option (ProgressCall V) :=
  match parse line with
  | .err => none
  | .nonObj => none
  | .obj t c m => some (t, c, m)

/-- JobProgressAdapter.write (lines 380-387): split the incoming buffer on
newlines, glue the carry buffer onto the first piece, keep the last piece
as the new carry, and parse every other piece in order. -/
def jpWrite {V : Type} (parse : List Nat → ParseRes V) (s : JPState V)
    (data : List Nat) : JPState V :=
  let lines := pySplit data
  let lines := if s.buf ≠ [] then (s.buf ++ lines.headD []) :: lines.tail else lines
  { buf := lines.getLastD [],
    calls := s.calls ++ lines.dropLast.filterMap (parseCall parse) }

/-- Writing a sequence of byte chunks with successive write calls. -/
def jpWrites {V : Type} (parse : List Nat → ParseRes V) :
    JPState V → List (List Nat) → JPState V
  | s, [] => s
  | s, c :: cs => jpWrites parse (jpWrite parse s c) cs

/-- JobProgressAdapter inherits close from StreamPushAdapter (lines
312-316), whose body is `pass`: closing changes nothing — in particular it
does not flush the carry buffer. -/
def jpClose {V : Type} (s : JPState V) : JPState V := s

theorem pySplit_ne_nil (l : List Nat) : pySplit l ≠ [] := by
  cases l with
  | nil => simp [pySplit]
  | cons b bs =>
    simp only [pySplit]
    cases pySplit bs with
    | nil => simp
    | cons h t => by_cases hb : b = 10 <;> simp [hb]

theorem pySplit_eq_head_cons_tail (l : List Nat) :
    pySplit l = (pySplit l).headD [] :: (pySplit l).tail := by
  cases hsp : pySplit l with
  | nil => exact absurd hsp (pySplit_ne_nil l)
  | cons h t => simp

/-- Splitting a concatenation: the last piece of the first part glues onto
the first piece of the second part. -/
theorem pySplit_append (a b : List Nat) :
    pySplit (a ++ b) =
      (pySplit a).dropLast ++
        (((pySplit a).getLastD [] ++ (pySplit b).headD []) :: (pySplit b).tail) := by
  induction a with
  | nil =>
    simpa [pySplit] using pySplit_eq_head_cons_tail b
  | cons x xs ih =>
    rcases hsp : pySplit xs with _ | ⟨H, T⟩
    · exact absurd hsp (pySplit_ne_nil xs)
    · rw [hsp] at ih
      cases T with
      | nil =>
        by_cases hx : x = 10 <;>
          simp [List.cons_append, pySplit, List.append_eq, ih, hx, hsp]
      | cons t0 ts =>
        by_cases hx : x = 10 <;>
          simp [List.cons_append, pySplit, List.append_eq, ih, hx, hsp,
            List.getLastD_eq_getLast?]

/-- The canonical adapter state after the byte stream `S` has been written:
the carry buffer holds the bytes after the last newline, and a call was
made for each complete line that parsed as an object. -/
def canonJP {V : Type} (parse : List Nat → ParseRes V) (S : List Nat) : JPState V :=
  { buf := (pySplit S).getLastD [],
    calls := (pySplit S).dropLast.filterMap (parseCall parse) }

theorem initJP_canon {V : Type} (parse : List Nat → ParseRes V) :
    initJP V = canonJP parse [] := by
  simp [initJP, canonJP, pySplit]

/-- One write call keeps the state canonical. -/
theorem jpWrite_canon {V : Type} (parse : List Nat → ParseRes V) (S c : List Nat) :
    jpWrite parse (canonJP parse S) c = canonJP parse (S ++ c) := by
  have hlines : (if ((pySplit S).getLastD [] : List Nat) ≠ [] then
      ((pySplit S).getLastD [] ++ (pySplit c).headD []) :: (pySplit c).tail
      else pySplit c) =
      ((pySplit S).getLastD [] ++ (pySplit c).headD []) :: (pySplit c).tail := by
    by_cases hb : ((pySplit S).getLastD [] : List Nat) = []
    · rw [if_neg (by simpa using hb), hb, List.nil_append]
      exact pySplit_eq_head_cons_tail c
    · rw [if_pos hb]
  simp only [jpWrite, canonJP]
  rw [hlines, pySplit_append S c]
  congr 1
  · simp [List.getLastD_eq_getLast?, List.getLast?_cons, Option.or_some]
  · rw [List.dropLast_append_cons, List.filterMap_append]

/-- Any sequence of write calls leaves the adapter in the canonical state
of the concatenated stream: chunk boundaries are invisible. -/
theorem jpWrites_canon {V : Type} (parse : List Nat → ParseRes V) (chunks : List (List Nat)) :
    ∀ S, jpWrites parse (canonJP parse S) chunks = canonJP parse (S ++ chunks.flatten) := by
  induction chunks with
  | nil => intro S; simp [jpWrites]
  | cons c cs ih =>
    intro S
    simp only [jpWrites, jpWrite_canon, ih, List.flatten_cons, List.append_assoc]

/-- Byte string of a Python string literal. -/
def strBytes (s : String) : List Nat := s.toList.map Char.toNat

def progressLine1 : List Nat := strBytes "\x7b\"total\":10,\"current\":3\x7d"

def progressLine2 : List Nat := strBytes "\x7b\"bad json"

def progressLine3 : List Nat := strBytes "\x7b\"total\":10,\"current\":4\x7d"

/-- The byte stream of the C8 scenario: two well-formed progress lines with
a malformed line between them, each newline-terminated. -/
def progressStream : List Nat :=
  progressLine1 ++ [10] ++ progressLine2 ++ [10] ++ progressLine3 ++ [10]

/-- C8: writing the C8 byte stream to the progress push adapter, in any
number of write calls, produces exactly two updateProgress calls, the first
with total 10 and current 3 and the second with total 10 and current 4; the
malformed middle line is dropped without effect.  json.loads is abstracted
to a parser about which only its results on the three lines are assumed:
the two well-formed lines parse to objects with those total and current
fields and no message, the middle line raises. -/
theorem progress_adapter_two_calls (parse : List Nat → ParseRes Nat)
    (chunks : List (List Nat))
    (hconcat : chunks.flatten = progressStream)
    (h1 : parse progressLine1 = .obj (some 10) (some 3) none)
    (h2 : parse progressLine2 = .err)
    (h3 : parse progressLine3 = .obj (some 10) (some 4) none) :
    (jpWrites parse (initJP Nat) chunks).calls =
      [(some 10, some 3, none), (some 10, some 4, none)] := by
  rw [initJP_canon parse]
  have h := jpWrites_canon parse chunks []
  rw [List.nil_append, hconcat] at h
  rw [h]
  have hsplit : pySplit progressStream =
      [progressLine1, progressLine2, progressLine3, []] := by decide
  simp [canonJP, hsplit, parseCall, h1, h2, h3]

/-- A parser consistent with json.loads on the three lines of the C8
scenario. -/
def demoParse : List Nat → ParseRes Nat := fun l =>
  if l = progressLine1 then .obj (some 10) (some 3) none
  else if l = progressLine3 then .obj (some 10) (some 4) none
  else .err

/-- Witness for C8: the whole stream delivered in one write call under the
concrete parser. -/
theorem progress_adapter_two_calls_witness :
    (jpWrites demoParse (initJP Nat) [progressStream]).calls =
      [(some 10, some 3, none), (some 10, some 4, none)] :=
  progress_adapter_two_calls demoParse [progressStream] (by simp)
    (by decide) (by decide) (by decide)

/-- C10: after any sequence of write calls followed by close, the calls
made to the progress sink come exactly from the complete lines — the
pieces strictly before the last newline of the concatenated stream — and
the bytes after the last newline are still sitting in the carry buffer:
close has no flush, so a final line without a trailing newline is never
parsed and never forwarded, no matter how many write calls preceded it. -/
theorem progress_adapter_buffers_after_last_newline {V : Type}
    (parse : List Nat → ParseRes V) (chunks : List (List Nat)) :
    jpClose (jpWrites parse (initJP V) chunks) =
      { buf := (pySplit chunks.flatten).getLastD [],
        calls := (pySplit chunks.flatten).dropLast.filterMap (parseCall parse) } := by
  rw [jpClose, initJP_canon parse]
  have h := jpWrites_canon parse chunks []
  rw [List.nil_append] at h
  rw [h, canonJP]

/-! ### Temporary volume resolution
(girder_worker/docker/transforms/__init__.py, TemporaryVolume lines 92-141,
_DefaultTemporaryVolume lines 80-89, Volume lines 55-78)

tempfile.mkdtemp and uuid4 are nondeterministic; each transform call takes
the fresh names the libraries would produce as parameters and records the
filesystem actions it performs, so that idempotence is a statement about
arbitrary fresh names. -/

/-- The container-side mount root TEMP_VOLUME_MOUNT_PREFIX (line 9). -/
def tempVolumeMountBase : String := "/mnt/girder_worker"

/-- The runtime default temporary volume (_DefaultTemporaryVolume): both
paths are fixed in its constructor (lines 84-86, mkdtemp and a fresh uuid
under the mount root); its transform (lines 88-89) only records that it
was used and returns None. -/
structure DefaultVol where
  hostPath : String
  containerPath : String
  transformed : Bool
  deriving Repr, DecidableEq

/-- _DefaultTemporaryVolume.transform (lines 88-89). -/
def DefaultVol.transform (v : DefaultVol) : DefaultVol := { v with transformed := true }

/-- Filesystem actions TemporaryVolume.transform can perform. -/
inductive VolEvent where
  | makedirs (dir : String)
  | mkdtemp (root : Option String) (result : String)
  deriving Repr, DecidableEq

/-- A TemporaryVolume instance: the optional fixed host root passed to the
constructor, the delegated runtime instance, the `_transformed` flag and
the two path attributes (None until materialized). -/
structure TempVolume where
  hostDir : Option String
  instanceV : Option DefaultVol
  transformed : Bool
  hostPathF : Option String
  containerPathF : Option String
  deriving Repr, DecidableEq

/-- TemporaryVolume.__init__ (lines 100-109). -/
def TempVolume.init (hostDir : Option String) : TempVolume :=
  { hostDir := hostDir, instanceV := none, transformed := false,
    hostPathF := none, containerPathF := none }

/-- The container_path property (lines 129-134): delegate to the runtime
instance when one was installed. -/
def TempVolume.containerPathProp (v : TempVolume) : Option String :=
  match v.instanceV with
  | some tv => some tv.containerPath
  | none => v.containerPathF

/-- The host_path property (lines 136-141). -/
def TempVolume.hostPathProp (v : TempVolume) : Option String :=
  match v.instanceV with
  | some tv => some tv.hostPath
  | none => v.hostPathF

/-- TemporaryVolume.transform (lines 111-127).  `tempVolume` is the
temp_volume keyword argument the task passes, `hostDirExists` is what
os.path.exists would report for the fixed host root, `freshHost` and
`freshUuid` are the names mkdtemp and uuid4 would mint.  Returns the new
state, the filesystem actions performed, and the return value (the
container path from Volume.transform, or None from the delegated
_DefaultTemporaryVolume.transform). -/
def TempVolume.transform (v : TempVolume) (tempVolume : Option DefaultVol)
    (hostDirExists : Bool) (freshHost freshUuid : String) :
    TempVolume × List VolEvent × Option String :=
  match tempVolume, v.hostDir with
  | some tv, none =>
    -- lines 116-119: install and delegate to the runtime instance
    ({ v with instanceV := some tv.transform, transformed := true }, [], none)
  | _, _ =>
    if v.transformed then (v, [], v.containerPathProp)
    else
      -- lines 121-126: materialize once
      let ev1 : List VolEvent :=
        match v.hostDir with
        | some d => if hostDirExists then [] else [VolEvent.makedirs d]
        | none => []
      let v' : TempVolume :=
        { v with transformed := true, hostPathF := some freshHost, containerPathF := some (tempVolumeMountBase ++ "/" ++ freshUuid) }
      (v', ev1 ++ [VolEvent.mkdtemp v.hostDir freshHost], v'.containerPathProp)

/-- Number of host temp directories created (mkdtemp calls) in an action
list. -/
def mkdtempCount : List VolEvent → Nat
  | [] => 0
  | VolEvent.mkdtemp _ _ :: es => mkdtempCount es + 1
  | _ :: es => mkdtempCount es

/-- Two successive resolutions of a fresh TemporaryVolume within one run
(same temp_volume argument both times, arbitrary fresh names each time). -/
def transformTwice (hostDir : Option String) (tv : Option DefaultVol)
    (e1 e2 : Bool) (f1 u1 f2 u2 : String) :
    (TempVolume × List VolEvent × Option String) ×
      (TempVolume × List VolEvent × Option String) :=
  let r1 := (TempVolume.init hostDir).transform tv e1 f1 u1
  (r1, r1.1.transform tv e2 f2 u2)

/-- C9: resolving the same temporary volume twice within one run returns
the same container path both times, observes the same host and container
paths both times, performs no filesystem action at all on the second
resolution, and creates the host temp directory at most once and only
during the first resolution — for every constructor argument, every
temp_volume argument (held fixed within the run), every os.path.exists
answer and all fresh names. -/
theorem temporary_volume_transform_idempotent (hostDir : Option String)
    (tv : Option DefaultVol) (e1 e2 : Bool) (f1 u1 f2 u2 : String) :
    (transformTwice hostDir tv e1 e2 f1 u1 f2 u2).2.1.hostPathProp =
      (transformTwice hostDir tv e1 e2 f1 u1 f2 u2).1.1.hostPathProp ∧
    (transformTwice hostDir tv e1 e2 f1 u1 f2 u2).2.1.containerPathProp =
      (transformTwice hostDir tv e1 e2 f1 u1 f2 u2).1.1.containerPathProp ∧
    (transformTwice hostDir tv e1 e2 f1 u1 f2 u2).2.2.2 =
      (transformTwice hostDir tv e1 e2 f1 u1 f2 u2).1.2.2 ∧
    (transformTwice hostDir tv e1 e2 f1 u1 f2 u2).2.2.1 = [] ∧
    mkdtempCount (transformTwice hostDir tv e1 e2 f1 u1 f2 u2).1.2.1 ≤ 1 := by
  rcases tv with _ | t <;> rcases hostDir with _ | d <;> cases e1 <;>
    simp [transformTwice, TempVolume.transform, TempVolume.init,
      TempVolume.hostPathProp, TempVolume.containerPathProp,
      DefaultVol.transform, mkdtempCount]

end GW
